import Mathlib

/-!
Verification of the configuration-language parser in `config_parser.py`.

The parser is a hand-written recursive-descent reader over a list of input
lines.  We embed it shallowly: lines are `List Char`, the mutable
`ConfigParser` object (`self.lines`, `self.current_line`, `self.constants`)
becomes an explicit `PState` threaded through the functions, Python dicts
become insertion-ordered association lists, and `ParseError` becomes an
explicit error value.  Each Lean definition mirrors the Python method of the
same (snake-cased) name.
-/

namespace ConfigParser

/-- The opening brace character (written via its code point). -/
def lbrace : Char := '\x7b'

/-- The closing brace character (written via its code point). -/
def rbrace : Char := '\x7d'

/-- Whitespace as recognised by Python's `str.strip` / regex `\s`
(restricted to the ASCII whitespace characters). -/
def isWs (c : Char) : Bool :=
  c = ' ' || c = '\t' || c = '\n' || c = '\r' || c = '\x0b' || c = '\x0c'

/-- Python `str.strip()`: remove whitespace from both ends. -/
def trim (l : List Char) : List Char :=
  ((l.dropWhile isWs).reverse.dropWhile isWs).reverse

/-- Python `text.split('\n')`: split on every newline; the result always has
one more element than the number of newlines (so `"".split('\n') == [""]`). -/
def splitLines : List Char → List (List Char)
  | [] => [[]]
  | c :: rest =>
    if c = '\n' then [] :: splitLines rest
    else
      match splitLines rest with
      | [] => [[c]]
      | l :: ls => (c :: l) :: ls

/-- First character of the regex identifier class `[a-zA-Z_]`. -/
def isIdentStart (c : Char) : Bool := c.isAlpha || c = '_'

/-- Subsequent characters of the regex identifier class `[a-zA-Z0-9_]`. -/
def isIdentChar (c : Char) : Bool := c.isAlphanum || c = '_'

/-- Match a maximal nonempty identifier `[a-zA-Z_][a-zA-Z0-9_]*` at the head
of the list, returning it together with the remaining characters. -/
def takeIdent : List Char → Option (List Char × List Char)
  | [] => none
  | c :: cs =>
    if isIdentStart c then some (c :: cs.takeWhile isIdentChar, cs.dropWhile isIdentChar)
    else none

/-- `line.startswith("*>")`. -/
def isComment (l : List Char) : Bool :=
  match l with
  | a :: b :: _ => a = '*' && b = '>'
  | _ => false

/-- A line the scanners skip: blank, or a `*>` comment. -/
def isSkipLine (l : List Char) : Bool := l.isEmpty || isComment l

/-- `line.startswith("def")`. -/
def startsWithDef (l : List Char) : Bool :=
  match l with
  | 'd' :: 'e' :: 'f' :: _ => true
  | _ => false

/-- `value.startswith(c)` for a single character. -/
def headIs (l : List Char) (c : Char) : Bool := l.head? = some c

/-- `value.endswith(c)` for a single character. -/
def lastIs (l : List Char) (c : Char) : Bool := l.getLast? = some c

/-- `value.startswith("[[")` (two-character prefix). -/
def startsWith2 (l : List Char) (a b : Char) : Bool :=
  match l with
  | x :: y :: _ => x = a && y = b
  | _ => false

/-- `value.endswith("]]")` (two-character suffix: the last character is `b`,
the one before it is `a`). -/
def endsWith2 (l : List Char) (a b : Char) : Bool :=
  match l.reverse with
  | y :: x :: _ => y = b && x = a
  | _ => false

/-- Guard of the `[[ ... ]]` text branch of `parse_value`. -/
def isTextTok (v : List Char) : Bool := startsWith2 v '[' '[' && endsWith2 v ']' ']'

/-- Guard of the `{ ... }` inline-mapping branch of `parse_value`. -/
def isDictTok (v : List Char) : Bool := headIs v lbrace && lastIs v rbrace

/-- Guard of the `| ... |` constant-reference branch of `parse_value`. -/
def isConstTok (v : List Char) : Bool := headIs v '|' && lastIs v '|'

/-- Regex `^-?\d+(\.\d+)?$` from `parse_number` (digits taken as ASCII). -/
def numPat (v : List Char) : Bool :=
  let v1 := match v with
    | '-' :: rest => rest
    | _ => v
  let ds := v1.takeWhile Char.isDigit
  let r := v1.dropWhile Char.isDigit
  !ds.isEmpty &&
    (r.isEmpty ||
      match r with
      | '.' :: fs => !fs.isEmpty && fs.all Char.isDigit
      | _ => false)

/-- Match `^([a-zA-Z_][a-zA-Z0-9_]*)\s*->\s*(.+)\.$` (the `key -> value.`
entry form).  The regex is deterministic on the lines this parser feeds it:
the identifier and the whitespace runs are maximal, and the greedy `(.+)\.$`
captures everything up to the final `.`, except that `\s*` backtracks when
the remainder would otherwise be empty.  Returns the key and the raw capture
of group 2. -/
def matchEntryValue (l : List Char) : Option (List Char × List Char) :=
  match takeIdent l with
  | none => none
  | some (key, r1) =>
    match r1.dropWhile isWs with
    | '-' :: '>' :: r3 =>
      if 2 ≤ r3.length ∧ r3.getLast? = some '.' then
        let k := min (r3.takeWhile isWs).length (r3.length - 2)
        some (key, (r3.drop k).dropLast)
      else none
    | _ => none

/-- Match `^([a-zA-Z_][a-zA-Z0-9_]*)\s*->\s*\{$` (the `key -> {` structural
nesting form), returning the key. -/
def matchEntryNested (l : List Char) : Option (List Char) :=
  match takeIdent l with
  | none => none
  | some (key, r1) =>
    match r1.dropWhile isWs with
    | '-' :: '>' :: r3 =>
      if r3.dropWhile isWs = [lbrace] then some key else none
    | _ => none

/-- Match `^def\s+([a-zA-Z_][a-zA-Z0-9_]*)\s*=\s*(.+);$` from
`parse_constant_declaration`, returning the name and the raw capture of
group 2. -/
def matchDef (l : List Char) : Option (List Char × List Char) :=
  match l with
  | 'd' :: 'e' :: 'f' :: r0 =>
    if (r0.takeWhile isWs).isEmpty then none
    else
      match takeIdent (r0.dropWhile isWs) with
      | none => none
      | some (name, r1) =>
        match r1.dropWhile isWs with
        | '=' :: r2 =>
          if 2 ≤ r2.length ∧ r2.getLast? = some ';' then
            let k := min (r2.takeWhile isWs).length (r2.length - 2)
            some (name, (r2.drop k).dropLast)
          else none
        | _ => none
  | _ => none

/-- Parsed values.  A Python `float` produced by `float(tok)` is modelled
exactly by the decimal literal it came from, as `mant / 10 ^ scale`; the
IEEE rounding itself is outside the embedding.  Python dicts are modelled as
insertion-ordered association lists. -/
inductive Value where
  | vInt (n : Int)
  | vFloat (mant : Int) (scale : Nat)
  | vText (s : List Char)
  | vMap (m : List (List Char × Value))

/-- The kinds of `ParseError` raised by the parser, one per `raise` site. -/
inductive PErrKind where
  /-- "Ожидалась открывающая скобка." -/
  | expectedOpenBrace
  /-- "Ожидался конец файла после закрывающей скобки." -/
  | expectedEOF
  /-- "Ожидался конец вложенного словаря с точкой." -/
  | malformedClose
  /-- "Некорректное объявление константы." -/
  | invalidConstDecl
  /-- "Некорректная запись словаря." -/
  | invalidEntry
  /-- "Неверный формат числа: tok" -/
  | invalidNumber (tok : List Char)
  /-- "Неопределенная константа: name" -/
  | undefinedConst (name : List Char)
  deriving DecidableEq, Repr

/-- A `ParseError` with its 1-based line number (as passed at the raise
site). -/
structure PErr where
  kind : PErrKind
  line : Nat
  deriving DecidableEq, Repr

/-- Insertion-ordered dictionaries (Python `dict`): both the result mappings
and the constant table. -/
abbrev ConfigDict := List (List Char × Value)

/-- Python `d[k] = v`: overwrite in place if the key exists (keeping its
original position), else append. -/
def dictInsert (m : ConfigDict) (k : List Char) (v : Value) : ConfigDict :=
  match m with
  | [] => [(k, v)]
  | (k', v') :: rest => if k' = k then (k', v) :: rest else (k', v') :: dictInsert rest k v

/-- Python `k in d` / `d[k]` combined. -/
def lookupC (m : ConfigDict) (k : List Char) : Option Value :=
  match m with
  | [] => none
  | (k', v') :: rest => if k' = k then some v' else lookupC rest k

/-- The parser state: the fields `self.lines`, `self.current_line`,
`self.constants` of a `ConfigParser` object. -/
structure PState where
  lines : List (List Char)
  cursor : Nat
  constants : ConfigDict

/-- Digit-string to number, as Python `int` does on a digit string. -/
def digitsToNat (ds : List Char) : Nat :=
  ds.foldl (fun a c => a * 10 + (c.toNat - 48)) 0

/-- Python `int(tok)` for a token matching `-?\d+`. -/
def intOfToken (v : List Char) : Int :=
  match v with
  | '-' :: ds => -(digitsToNat ds : Int)
  | ds => (digitsToNat ds : Int)

/-- Python `float(tok)` for a token matching `-?\d+\.\d+`, modelled as the
exact decimal mantissa/scale pair. -/
def floatOfToken (v : List Char) : Value :=
  let sgn := v.head? = some '-'
  let v1 := if sgn then v.drop 1 else v
  let ip := v1.takeWhile Char.isDigit
  let fr := (v1.dropWhile Char.isDigit).drop 1
  let mant : Int := (digitsToNat (ip ++ fr) : Int)
  .vFloat (if sgn then -mant else mant) fr.length

/-- `ConfigParser.parse_string`: `value[2:-2]`. -/
def parse_string (v : List Char) : Value := .vText ((v.drop 2).dropLast.dropLast)

/-- `ConfigParser.parse_number`. -/
def parse_number (st : PState) (v : List Char) : Except PErr Value :=
  if numPat v then
    if v.contains '.' then .ok (floatOfToken v) else .ok (.vInt (intOfToken v))
  else .error ⟨.invalidNumber v, st.cursor + 1⟩

/-- `ConfigParser.parse_constant`: `value[1:-1]` looked up in
`self.constants`. -/
def parse_constant (st : PState) (v : List Char) : Except PErr Value :=
  let name := (v.drop 1).dropLast
  match lookupC st.constants name with
  | some val => .ok val
  | none => .error ⟨.undefinedConst name, st.cursor + 1⟩

/-- Total remaining size of the input from a cursor position: each remaining
line counts its length plus one.  This is the termination measure of the
recursive descent (the cursor only moves forward, and an inline mapping
literal recurses into a strictly shorter piece of text). -/
def weight (lines : List (List Char)) (c : Nat) : Nat :=
  ((lines.drop c).map (fun l => l.length + 1)).sum

theorem dropWhile_length_le (p : Char → Bool) (l : List Char) :
    (l.dropWhile p).length ≤ l.length := by
  have h := congrArg List.length (List.takeWhile_append_dropWhile p l)
  simp only [List.length_append] at h
  omega

theorem trim_length_le (l : List Char) : (trim l).length ≤ l.length := by
  unfold trim
  calc ((l.dropWhile isWs).reverse.dropWhile isWs).reverse.length
      = ((l.dropWhile isWs).reverse.dropWhile isWs).length := List.length_reverse _
    _ ≤ (l.dropWhile isWs).reverse.length := dropWhile_length_le _ _
    _ = (l.dropWhile isWs).length := List.length_reverse _
    _ ≤ l.length := dropWhile_length_le _ _

theorem weight_split (lines : List (List Char)) (c : Nat) (h : c < lines.length) :
    weight lines c = lines[c].length + 1 + weight lines (c + 1) := by
  unfold weight
  rw [List.drop_eq_getElem_cons h, List.map_cons, List.sum_cons]

theorem weight_succ_lt (lines : List (List Char)) (c : Nat) (h : c < lines.length) :
    weight lines (c + 1) < weight lines c := by
  rw [weight_split lines c h]
  omega

theorem weight_anti (lines : List (List Char)) {c c' : Nat} (h : c ≤ c') :
    weight lines c' ≤ weight lines c := by
  induction c' with
  | zero =>
    have hc : c = 0 := by omega
    subst hc
    exact Nat.le_refl _
  | succ n ih =>
    rcases Nat.eq_or_lt_of_le h with rfl | hlt
    · exact Nat.le_refl _
    · rcases Nat.lt_or_ge n lines.length with hn | hn
      · exact Nat.le_trans (Nat.le_of_lt (weight_succ_lt lines n hn)) (ih (by omega))
      · have hdrop : lines.drop (n + 1) = [] := List.drop_eq_nil_of_le (by omega)
        have : weight lines (n + 1) = 0 := by
          unfold weight
          rw [hdrop]
          simp
        omega

theorem weight_succ_lt_of_le (lines : List (List Char)) {c c' : Nat}
    (hle : c ≤ c') (h : c < lines.length) :
    weight lines (c' + 1) < weight lines c :=
  Nat.lt_of_le_of_lt (weight_anti lines (by omega)) (weight_succ_lt lines c h)

theorem splitLines_ne_nil (s : List Char) : splitLines s ≠ [] := by
  induction s with
  | nil => simp [splitLines]
  | cons c rest ih =>
    unfold splitLines
    by_cases hc : c = '\n'
    · simp [hc]
    · simp only [hc, if_false]
      cases hr : splitLines rest with
      | nil => simp
      | cons l ls => simp

theorem splitLines_weight (s : List Char) :
    ((splitLines s).map (fun l => l.length + 1)).sum = s.length + 1 := by
  induction s with
  | nil => simp [splitLines]
  | cons c rest ih =>
    unfold splitLines
    by_cases hc : c = '\n'
    · simp [hc, ih]
      omega
    · simp only [hc, if_false]
      cases hr : splitLines rest with
      | nil => exact absurd hr (splitLines_ne_nil rest)
      | cons l ls =>
        rw [hr] at ih
        simp only [List.map_cons, List.sum_cons, List.length_cons] at ih ⊢
        omega

theorem takeIdent_some {l key r : List Char} (h : takeIdent l = some (key, r)) :
    l.length = key.length + r.length ∧ 1 ≤ key.length := by
  cases l with
  | nil => simp [takeIdent] at h
  | cons c cs =>
    unfold takeIdent at h
    by_cases hs : isIdentStart c = true
    · simp only [hs, if_true, Option.some.injEq, Prod.mk.injEq] at h
      obtain ⟨hk, hr⟩ := h
      have hlen := congrArg List.length (List.takeWhile_append_dropWhile isIdentChar cs)
      simp only [List.length_append] at hlen
      subst hk hr
      simp only [List.length_cons]
      omega
    · simp [hs] at h

theorem matchEntryValue_length {l key g : List Char}
    (h : matchEntryValue l = some (key, g)) : g.length + 4 ≤ l.length := by
  unfold matchEntryValue at h
  cases hti : takeIdent l with
  | none => rw [hti] at h; simp at h
  | some kr =>
    obtain ⟨k0, r1⟩ := kr
    rw [hti] at h
    obtain ⟨hL, hK⟩ := takeIdent_some hti
    have hD : (r1.dropWhile isWs).length ≤ r1.length := dropWhile_length_le _ _
    simp only at h
    split at h
    · next r3 heq =>
      have hE : (r1.dropWhile isWs).length = r3.length + 2 := by
        rw [heq]; simp
      split at h
      · next hguard =>
        simp only [Option.some.injEq, Prod.mk.injEq] at h
        obtain ⟨hk, hg⟩ := h
        have hglen : g.length = r3.length - min (r3.takeWhile isWs).length (r3.length - 2) - 1 := by
          rw [← hg]
          simp [List.length_dropLast, List.length_drop]
        omega
      · exact absurd h (by simp)
    · next heq => exact absurd h (by simp)

theorem matchDef_length {l n g : List Char}
    (h : matchDef l = some (n, g)) : g.length + 2 ≤ l.length := by
  unfold matchDef at h
  split at h
  · next r0 =>
    split at h
    · exact absurd h (by simp)
    · next hws =>
      cases hti : takeIdent (r0.dropWhile isWs) with
      | none => rw [hti] at h; simp at h
      | some nr =>
        obtain ⟨n0, r1⟩ := nr
        rw [hti] at h
        obtain ⟨hL, hK⟩ := takeIdent_some hti
        have hD0 : (r0.dropWhile isWs).length ≤ r0.length := dropWhile_length_le _ _
        have hD1 : (r1.dropWhile isWs).length ≤ r1.length := dropWhile_length_le _ _
        simp only at h
        split at h
        · next r2 heq =>
          have hE : (r1.dropWhile isWs).length = r2.length + 1 := by
            rw [heq]; simp
          split at h
          · next hguard =>
            simp only [Option.some.injEq, Prod.mk.injEq] at h
            obtain ⟨hn, hg⟩ := h
            have hglen : g.length = r2.length - min (r2.takeWhile isWs).length (r2.length - 2) - 1 := by
              rw [← hg]
              simp [List.length_dropLast, List.length_drop]
            simp only [List.length_cons]
            omega
          · exact absurd h (by simp)
        · next heq => exact absurd h (by simp)
  · next => simp at h

theorem two_le_of_dictTok {v : List Char} (h : isDictTok v = true) : 2 ≤ v.length := by
  cases v with
  | nil => simp [isDictTok, headIs] at h
  | cons a r =>
    cases r with
    | nil =>
      simp only [isDictTok, headIs, lastIs, List.head?, List.getLast?,
        Bool.and_eq_true, decide_eq_true_eq] at h
      obtain ⟨h1, h2⟩ := h
      simp only [Option.some.injEq] at h1 h2
      rw [h1] at h2
      exact absurd h2 (by decide)
    | cons b s => simp

/-- Invariant of all recursion through a shared state: the line list is
unchanged and the cursor never moves backwards. -/
def Advances (st st' : PState) : Prop := st'.lines = st.lines ∧ st.cursor ≤ st'.cursor

theorem Advances.relax {st mid x : PState} (h : Advances mid x)
    (hlines : mid.lines = st.lines) (hc : st.cursor ≤ mid.cursor) : Advances st x :=
  ⟨h.1.trans hlines, hc.trans h.2⟩

/-- The scan in `ConfigParser.parse` that runs after the top-level block has
returned: any further non-blank, non-comment line is a fatal error. -/
def checkTrailing (lines : List (List Char)) (c : Nat) : Except PErr Unit :=
  if h : c < lines.length then
    if isSkipLine (trim (lines.get ⟨c, h⟩)) then checkTrailing lines (c + 1)
    else .error ⟨.expectedEOF, c + 1⟩
  else .ok ()
termination_by lines.length - c

mutual

/-- The `while` loop of `ConfigParser.parse_block`, with the accumulated
`config` dict made explicit; `parse_block()` itself is `parseBlockLoop st []`.
The subtype on the returned state records that the recursion only ever moves
the cursor forward through the same line list. -/
def parseBlockLoop (st : PState) (config : ConfigDict) :
    Except PErr (ConfigDict × { st' : PState // Advances st st' }) :=
  if h : st.cursor < st.lines.length then
    let line := trim (st.lines.get ⟨st.cursor, h⟩)
    if isSkipLine line then
      match parseBlockLoop { st with cursor := st.cursor + 1 } config with
      | .error e => .error e
      | .ok (cfg, st') => .ok (cfg, ⟨st'.val, st'.property.relax rfl (Nat.le_succ _)⟩)
    else if startsWithDef line then
      match parseConstantDeclaration st h with
      | .error e => .error e
      | .ok cs =>
        match parseBlockLoop { st with constants := cs, cursor := st.cursor + 1 } config with
        | .error e => .error e
        | .ok (cfg, st') => .ok (cfg, ⟨st'.val, st'.property.relax rfl (Nat.le_succ _)⟩)
    else if headIs line lbrace then
      -- anonymous nested block: recurse at the next line and return its
      -- result directly, discarding the entries accumulated in `config`
      match parseBlockLoop { st with cursor := st.cursor + 1 } [] with
      | .error e => .error e
      | .ok (cfg, st') => .ok (cfg, ⟨st'.val, st'.property.relax rfl (Nat.le_succ _)⟩)
    else if headIs line rbrace then
      if line = [rbrace, '.'] ∨ line = [rbrace] then
        .ok (config, ⟨{ st with cursor := st.cursor + 1 }, rfl, Nat.le_succ _⟩)
      else .error ⟨.malformedClose, st.cursor + 1⟩
    else
      match parseEntry st config h with
      | .error e => .error e
      | .ok (cfg, st') =>
        match parseBlockLoop { st'.val with cursor := st'.val.cursor + 1 } cfg with
        | .error e => .error e
        | .ok (cfg2, st2) =>
          .ok (cfg2, ⟨st2.val,
            st2.property.relax st'.property.1 (Nat.le_trans st'.property.2 (Nat.le_succ _))⟩)
  else
    -- lines exhausted: the loop simply ends and the accumulated config is
    -- returned (there is no unterminated-block error in the source)
    .ok (config, ⟨st, rfl, Nat.le_refl _⟩)
termination_by (weight st.lines st.cursor, 3)
decreasing_by
  · exact Prod.Lex.left _ _ (weight_succ_lt st.lines st.cursor h)
  · exact Prod.Lex.right _ (by omega)
  · exact Prod.Lex.left _ _ (weight_succ_lt st.lines st.cursor h)
  · exact Prod.Lex.left _ _ (weight_succ_lt st.lines st.cursor h)
  · exact Prod.Lex.right _ (by omega)
  · apply Prod.Lex.left
    rw [st'.property.1]
    exact weight_succ_lt_of_le st.lines st'.property.2 h

/-- `ConfigParser.parse_entry`.  The Python method receives the stripped
current line; both call sites pass `self.lines[self.current_line].strip()`,
so here it is recomputed from the state. -/
def parseEntry (st : PState) (config : ConfigDict) (h : st.cursor < st.lines.length) :
    Except PErr (ConfigDict × { st' : PState // Advances st st' }) :=
  let line := trim (st.lines.get ⟨st.cursor, h⟩)
  if hm : (matchEntryValue line).isSome then
    let key := ((matchEntryValue line).get hm).1
    let rawv := ((matchEntryValue line).get hm).2
    match parseValue st (trim rawv) with
    | .error e => .error e
    | .ok v => .ok (dictInsert config key v, ⟨st, rfl, Nat.le_refl _⟩)
  else
    match matchEntryNested line with
    | some key =>
      -- structural nesting: recurse into the *same* state (shared cursor
      -- and shared constant table)
      match parseBlockLoop { st with cursor := st.cursor + 1 } [] with
      | .error e => .error e
      | .ok (nested, st') =>
        .ok (dictInsert config key (.vMap nested),
          ⟨st'.val, st'.property.relax rfl (Nat.le_succ _)⟩)
    | none => .error ⟨.invalidEntry, st.cursor + 1⟩
termination_by (weight st.lines st.cursor, 2)
decreasing_by
  · apply Prod.Lex.left
    have hsome : matchEntryValue line
        = some (((matchEntryValue line).get hm).1, ((matchEntryValue line).get hm).2) := by
      rw [Prod.mk.eta]
      exact (Option.some_get hm).symm
    have h1 := matchEntryValue_length hsome
    have h2 := trim_length_le ((matchEntryValue line).get hm).2
    have h3 := trim_length_le (st.lines.get ⟨st.cursor, h⟩)
    have h5 : line.length = (trim (st.lines.get ⟨st.cursor, h⟩)).length := rfl
    have h4 := weight_split st.lines st.cursor h
    show (trim ((matchEntryValue line).get hm).2).length + 1 < weight st.lines st.cursor
    simp only [List.get_eq_getElem] at h3 h4 h5
    omega
  · exact Prod.Lex.left _ _ (weight_succ_lt st.lines st.cursor h)

/-- `ConfigParser.parse_constant_declaration`.  The Python method receives
the stripped current line (recomputed here from the state), mutates
`self.constants`, and advances `self.current_line` by exactly one; the new
constant table is returned and each caller performs the cursor advance. -/
def parseConstantDeclaration (st : PState) (h : st.cursor < st.lines.length) :
    Except PErr ConfigDict :=
  let line := trim (st.lines.get ⟨st.cursor, h⟩)
  if hm : (matchDef line).isSome then
    let name := ((matchDef line).get hm).1
    let rawv := ((matchDef line).get hm).2
    match parseValue st (trim rawv) with
    | .error e => .error e
    | .ok v => .ok (dictInsert st.constants name v)
  else .error ⟨.invalidConstDecl, st.cursor + 1⟩
termination_by (weight st.lines st.cursor, 1)
decreasing_by
  · apply Prod.Lex.left
    have hsome : matchDef line
        = some (((matchDef line).get hm).1, ((matchDef line).get hm).2) := by
      rw [Prod.mk.eta]
      exact (Option.some_get hm).symm
    have h1 := matchDef_length hsome
    have h2 := trim_length_le ((matchDef line).get hm).2
    have h3 := trim_length_le (st.lines.get ⟨st.cursor, h⟩)
    have h5 : line.length = (trim (st.lines.get ⟨st.cursor, h⟩)).length := rfl
    have h4 := weight_split st.lines st.cursor h
    show (trim ((matchDef line).get hm).2).length + 1 < weight st.lines st.cursor
    simp only [List.get_eq_getElem] at h3 h4 h5
    omega

/-- `ConfigParser.parse_value`: classify the token by its delimiters. -/
def parseValue (st : PState) (v : List Char) : Except PErr Value :=
  if isTextTok v then .ok (parse_string v)
  else if hd : isDictTok v then parseDict st v (two_le_of_dictTok hd)
  else if isConstTok v then parse_constant st v
  else parse_number st v
termination_by (v.length + 1, 0)
decreasing_by
  · exact Prod.Lex.left _ _ (Nat.lt_succ_self _)

/-- `ConfigParser.parse_dict`: parse an inline mapping literal by spawning a
brand-new parser state whose lines are the brace-stripped content and whose
constant table is a copy of the current one. -/
def parseDict (st : PState) (v : List Char) (hv : 2 ≤ v.length) : Except PErr Value :=
  -- dict_content = value[1:-1].strip(), fed to a brand-new parser state
  -- whose constant table is self.constants.copy()
  match parseBlockLoop (PState.mk (splitLines (trim ((v.drop 1).dropLast))) 0 st.constants) [] with
  | .error e => .error e
  | .ok (cfg, _) => .ok (.vMap cfg)
termination_by (v.length, 0)
decreasing_by
  · apply Prod.Lex.left
    show weight (splitLines (trim ((v.drop 1).dropLast))) 0 < v.length
    have h1 : weight (splitLines (trim ((v.drop 1).dropLast))) 0
        = (trim ((v.drop 1).dropLast)).length + 1 := by
      unfold weight
      rw [List.drop_zero]
      exact splitLines_weight _
    have h2 := trim_length_le ((v.drop 1).dropLast)
    have h3 : ((v.drop 1).dropLast).length = v.length - 2 := by
      simp only [List.length_dropLast, List.length_drop]
      omega
    omega

/-- The driver loop of `ConfigParser.parse` (after `self.lines` and
`self.current_line` have been initialised). -/
def parseMain (st : PState) : Except PErr ConfigDict :=
  if h : st.cursor < st.lines.length then
    let line := trim (st.lines.get ⟨st.cursor, h⟩)
    if isSkipLine line then parseMain { st with cursor := st.cursor + 1 }
    else if startsWithDef line then
      match parseConstantDeclaration st h with
      | .error e => .error e
      | .ok cs => parseMain { st with constants := cs, cursor := st.cursor + 1 }
    else if headIs line lbrace then
      match parseBlockLoop { st with cursor := st.cursor + 1 } [] with
      | .error e => .error e
      | .ok (config, st') =>
        match checkTrailing st'.val.lines st'.val.cursor with
        | .error e => .error e
        | .ok _ => .ok config
    else .error ⟨.expectedOpenBrace, st.cursor + 1⟩
  else
    -- end of input reached without an opening brace: empty mapping
    .ok []
termination_by (weight st.lines st.cursor, 4)
decreasing_by
  all_goals
    first
    | exact Prod.Lex.right _ (by omega)
    | exact Prod.Lex.left _ _ (weight_succ_lt st.lines st.cursor h)

end

/-- `ConfigParser.parse` on a fresh `ConfigParser()` (empty constant table),
exactly as `main` invokes it: split the text on newlines, reset the cursor,
and run the driver loop. -/
def parse (text : List Char) : Except PErr ConfigDict :=
  parseMain { lines := splitLines text, cursor := 0, constants := [] }

/-! Branch-level equations for the recursive functions, with the
termination-bookkeeping subtype erased.  Each lemma restates one branch of
the corresponding Python method. -/

/-- `parse_block` viewed as result dict plus final state. -/
def blockResult (st : PState) (config : ConfigDict) : Except PErr (ConfigDict × PState) :=
  (parseBlockLoop st config).map (fun p => (p.1, p.2.val))

/-- `parse_entry` viewed as result dict plus final state. -/
def entryResult (st : PState) (config : ConfigDict) (h : st.cursor < st.lines.length) :
    Except PErr (ConfigDict × PState) :=
  (parseEntry st config h).map (fun p => (p.1, p.2.val))

/-- The stripped current line, `self.lines[self.current_line].strip()`. -/
def curLine (st : PState) : List Char := trim (st.lines.getD st.cursor [])

theorem curLine_eq (st : PState) (h : st.cursor < st.lines.length) :
    curLine st = trim (st.lines.get ⟨st.cursor, h⟩) := by
  unfold curLine
  rw [List.getD_eq_get st.lines [] h]

theorem parseMain_stop (st : PState) (h : st.lines.length ≤ st.cursor) :
    parseMain st = .ok [] := by
  rw [parseMain.eq_def, dif_neg (by omega)]

theorem parseMain_skip (st : PState) (h : st.cursor < st.lines.length)
    (hs : isSkipLine (curLine st) = true) :
    parseMain st = parseMain { st with cursor := st.cursor + 1 } := by
  rw [curLine_eq st h] at hs
  rw [parseMain.eq_def, dif_pos h]
  simp only [hs, if_true]

theorem parseMain_cdecl (st : PState) (h : st.cursor < st.lines.length)
    (hs : isSkipLine (curLine st) = false) (hd : startsWithDef (curLine st) = true) :
    parseMain st = (parseConstantDeclaration st h).bind
      (fun cs => parseMain { st with constants := cs, cursor := st.cursor + 1 }) := by
  rw [curLine_eq st h] at hs hd
  rw [parseMain.eq_def, dif_pos h]
  simp only [hs, hd]
  cases parseConstantDeclaration st h <;> simp [Except.bind]

theorem parseMain_brace (st : PState) (h : st.cursor < st.lines.length)
    (hs : isSkipLine (curLine st) = false) (hd : startsWithDef (curLine st) = false)
    (hb : headIs (curLine st) lbrace = true) :
    parseMain st = (blockResult { st with cursor := st.cursor + 1 } []).bind
      (fun p => (checkTrailing p.2.lines p.2.cursor).map (fun _ => p.1)) := by
  rw [curLine_eq st h] at hs hd hb
  rw [parseMain.eq_def, dif_pos h]
  simp only [hs, hd, hb]
  unfold blockResult
  cases hc : parseBlockLoop { st with cursor := st.cursor + 1 } [] with
  | error e => simp [Except.bind, Except.map]
  | ok p =>
    obtain ⟨cfg, st'⟩ := p
    simp only [Except.map, Except.bind]
    cases checkTrailing st'.val.lines st'.val.cursor <;> simp [Except.map]

theorem parseMain_err (st : PState) (h : st.cursor < st.lines.length)
    (hs : isSkipLine (curLine st) = false) (hd : startsWithDef (curLine st) = false)
    (hb : headIs (curLine st) lbrace = false) :
    parseMain st = .error ⟨.expectedOpenBrace, st.cursor + 1⟩ := by
  rw [curLine_eq st h] at hs hd hb
  rw [parseMain.eq_def, dif_pos h]
  simp only [hs, hd, hb]
  rfl

theorem blockResult_stop (st : PState) (config : ConfigDict)
    (h : st.lines.length ≤ st.cursor) :
    blockResult st config = .ok (config, st) := by
  unfold blockResult
  rw [parseBlockLoop.eq_def, dif_neg (by omega)]
  simp [Except.map]

theorem blockResult_skip (st : PState) (config : ConfigDict)
    (h : st.cursor < st.lines.length) (hs : isSkipLine (curLine st) = true) :
    blockResult st config = blockResult { st with cursor := st.cursor + 1 } config := by
  rw [curLine_eq st h] at hs
  unfold blockResult
  rw [parseBlockLoop.eq_def, dif_pos h]
  simp only [hs, if_true]
  cases parseBlockLoop { st with cursor := st.cursor + 1 } config with
  | error e => simp [Except.map]
  | ok p =>
    obtain ⟨cfg, st'⟩ := p
    simp [Except.map]

theorem blockResult_cdecl (st : PState) (config : ConfigDict)
    (h : st.cursor < st.lines.length)
    (hs : isSkipLine (curLine st) = false) (hd : startsWithDef (curLine st) = true) :
    blockResult st config = (parseConstantDeclaration st h).bind
      (fun cs => blockResult { st with constants := cs, cursor := st.cursor + 1 } config) := by
  rw [curLine_eq st h] at hs hd
  unfold blockResult
  rw [parseBlockLoop.eq_def, dif_pos h]
  simp only [hs, hd]
  cases parseConstantDeclaration st h with
  | error e => simp [Except.bind, Except.map]
  | ok cs =>
    simp only [Except.bind, Except.map]
    cases parseBlockLoop { st with constants := cs, cursor := st.cursor + 1 } config with
    | error e => simp [Except.map]
    | ok p =>
      obtain ⟨cfg, st'⟩ := p
      simp [Except.map]

theorem blockResult_anon (st : PState) (config : ConfigDict)
    (h : st.cursor < st.lines.length)
    (hs : isSkipLine (curLine st) = false) (hd : startsWithDef (curLine st) = false)
    (hb : headIs (curLine st) lbrace = true) :
    blockResult st config = blockResult { st with cursor := st.cursor + 1 } [] := by
  rw [curLine_eq st h] at hs hd hb
  unfold blockResult
  rw [parseBlockLoop.eq_def, dif_pos h]
  simp only [hs, hd, hb]
  cases parseBlockLoop { st with cursor := st.cursor + 1 } [] with
  | error e => simp [Except.map]
  | ok p =>
    obtain ⟨cfg, st'⟩ := p
    simp [Except.map]

theorem blockResult_close (st : PState) (config : ConfigDict)
    (h : st.cursor < st.lines.length)
    (hs : isSkipLine (curLine st) = false) (hd : startsWithDef (curLine st) = false)
    (hb : headIs (curLine st) lbrace = false)
    (hc : headIs (curLine st) rbrace = true)
    (hok : curLine st = [rbrace, '.'] ∨ curLine st = [rbrace]) :
    blockResult st config = .ok (config, { st with cursor := st.cursor + 1 }) := by
  rw [curLine_eq st h] at hs hd hb hc hok
  unfold blockResult
  rw [parseBlockLoop.eq_def, dif_pos h]
  simp only [hs, hd, hb, hc, if_false, if_true]
  rw [if_pos hok]
  simp [Except.map]

theorem blockResult_closeBad (st : PState) (config : ConfigDict)
    (h : st.cursor < st.lines.length)
    (hs : isSkipLine (curLine st) = false) (hd : startsWithDef (curLine st) = false)
    (hb : headIs (curLine st) lbrace = false)
    (hc : headIs (curLine st) rbrace = true)
    (hbad : ¬(curLine st = [rbrace, '.'] ∨ curLine st = [rbrace])) :
    blockResult st config = .error ⟨.malformedClose, st.cursor + 1⟩ := by
  rw [curLine_eq st h] at hs hd hb hc hbad
  unfold blockResult
  rw [parseBlockLoop.eq_def, dif_pos h]
  simp only [hs, hd, hb, hc, if_false, if_true]
  rw [if_neg hbad]
  simp [Except.map]

theorem blockResult_entry (st : PState) (config : ConfigDict)
    (h : st.cursor < st.lines.length)
    (hs : isSkipLine (curLine st) = false) (hd : startsWithDef (curLine st) = false)
    (hb : headIs (curLine st) lbrace = false)
    (hc : headIs (curLine st) rbrace = false) :
    blockResult st config = (entryResult st config h).bind
      (fun p => blockResult { p.2 with cursor := p.2.cursor + 1 } p.1) := by
  rw [curLine_eq st h] at hs hd hb hc
  unfold blockResult entryResult
  rw [parseBlockLoop.eq_def, dif_pos h]
  simp only [hs, hd, hb, hc, if_false]
  cases parseEntry st config h with
  | error e => simp [Except.bind, Except.map]
  | ok p =>
    obtain ⟨cfg, st'⟩ := p
    simp only [Except.bind, Except.map]
    cases parseBlockLoop { st'.val with cursor := st'.val.cursor + 1 } cfg with
    | error e => simp [Except.map]
    | ok q =>
      obtain ⟨cfg2, st2⟩ := q
      simp [Except.map]

theorem entryResult_value (st : PState) (config : ConfigDict)
    (h : st.cursor < st.lines.length) (key rawv : List Char)
    (hm : matchEntryValue (curLine st) = some (key, rawv)) :
    entryResult st config h
      = (parseValue st (trim rawv)).map (fun v => (dictInsert config key v, st)) := by
  rw [curLine_eq st h] at hm
  unfold entryResult
  rw [parseEntry.eq_def]
  simp only [hm, Option.isSome_some, Option.get_some]
  cases parseValue st (trim rawv) <;> simp [Except.map]

theorem entryResult_nested (st : PState) (config : ConfigDict)
    (h : st.cursor < st.lines.length) (key : List Char)
    (hmv : matchEntryValue (curLine st) = none)
    (hm : matchEntryNested (curLine st) = some key) :
    entryResult st config h = (blockResult { st with cursor := st.cursor + 1 } []).map
      (fun p => (dictInsert config key (.vMap p.1), p.2)) := by
  rw [curLine_eq st h] at hmv hm
  unfold entryResult blockResult
  rw [parseEntry.eq_def]
  simp only [hmv, hm, Option.isSome_none]
  cases parseBlockLoop { st with cursor := st.cursor + 1 } [] with
  | error e => simp [Except.map]
  | ok p =>
    obtain ⟨cfg, st'⟩ := p
    simp [Except.map]

theorem entryResult_err (st : PState) (config : ConfigDict)
    (h : st.cursor < st.lines.length)
    (hmv : matchEntryValue (curLine st) = none)
    (hmn : matchEntryNested (curLine st) = none) :
    entryResult st config h = .error ⟨.invalidEntry, st.cursor + 1⟩ := by
  rw [curLine_eq st h] at hmv hmn
  unfold entryResult
  rw [parseEntry.eq_def]
  simp only [hmv, hmn, Option.isSome_none]
  simp [Except.map]

theorem cdecl_err (st : PState) (h : st.cursor < st.lines.length)
    (hm : matchDef (curLine st) = none) :
    parseConstantDeclaration st h = .error ⟨.invalidConstDecl, st.cursor + 1⟩ := by
  rw [curLine_eq st h] at hm
  rw [parseConstantDeclaration.eq_def]
  simp only [hm, Option.isSome_none]
  simp

theorem cdecl_ok (st : PState) (h : st.cursor < st.lines.length) (name rawv : List Char)
    (hm : matchDef (curLine st) = some (name, rawv)) :
    parseConstantDeclaration st h
      = (parseValue st (trim rawv)).map (dictInsert st.constants name) := by
  rw [curLine_eq st h] at hm
  rw [parseConstantDeclaration.eq_def]
  simp only [hm, Option.isSome_some, Option.get_some]
  cases parseValue st (trim rawv) <;> simp [Except.map]

theorem parseValue_text (st : PState) (v : List Char) (ht : isTextTok v = true) :
    parseValue st v = .ok (parse_string v) := by
  rw [parseValue.eq_def]
  simp only [ht, if_true]

theorem parseValue_dict (st : PState) (v : List Char)
    (ht : isTextTok v = false) (hd : isDictTok v = true) :
    parseValue st v = (blockResult
      { lines := splitLines (trim ((v.drop 1).dropLast)), cursor := 0,
        constants := st.constants } []).map (fun p => .vMap p.1) := by
  rw [parseValue.eq_def]
  simp only [ht, if_false]
  rw [dif_pos hd]
  rw [parseDict.eq_def]
  unfold blockResult
  cases parseBlockLoop
      { lines := splitLines (trim ((v.drop 1).dropLast)), cursor := 0,
        constants := st.constants } [] with
  | error e => simp [Except.map]
  | ok p =>
    obtain ⟨cfg, st'⟩ := p
    simp [Except.map]

theorem parseValue_const (st : PState) (v : List Char)
    (ht : isTextTok v = false) (hd : isDictTok v = false) (hc : isConstTok v = true) :
    parseValue st v = parse_constant st v := by
  rw [parseValue.eq_def]
  simp only [ht, hd, hc]
  rfl

theorem parseValue_num (st : PState) (v : List Char)
    (ht : isTextTok v = false) (hd : isDictTok v = false) (hc : isConstTok v = false) :
    parseValue st v = parse_number st v := by
  rw [parseValue.eq_def]
  simp only [ht, hd, hc]
  rfl

theorem checkTrailing_stop (lines : List (List Char)) (c : Nat)
    (h : lines.length ≤ c) : checkTrailing lines c = .ok () := by
  rw [checkTrailing.eq_def, dif_neg (by omega)]

theorem checkTrailing_skip (lines : List (List Char)) (c : Nat)
    (h : c < lines.length) (hs : isSkipLine (trim (lines.getD c [])) = true) :
    checkTrailing lines c = checkTrailing lines (c + 1) := by
  rw [List.getD_eq_get lines [] h] at hs
  rw [checkTrailing.eq_def, dif_pos h]
  simp only [hs, if_true]

theorem checkTrailing_bad (lines : List (List Char)) (c : Nat)
    (h : c < lines.length) (hs : isSkipLine (trim (lines.getD c [])) = false) :
    checkTrailing lines c = .error ⟨.expectedEOF, c + 1⟩ := by
  rw [List.getD_eq_get lines [] h] at hs
  rw [checkTrailing.eq_def, dif_pos h]
  simp only [hs]
  rfl

theorem blockResult_advances {st : PState} {config cfg' : ConfigDict} {st' : PState}
    (he : blockResult st config = .ok (cfg', st')) :
    st'.lines = st.lines ∧ st.cursor ≤ st'.cursor := by
  unfold blockResult at he
  cases hp : parseBlockLoop st config with
  | error e => rw [hp] at he; simp [Except.map] at he
  | ok p =>
    obtain ⟨cfg2, stsub⟩ := p
    rw [hp] at he
    simp only [Except.map, Option.map, Except.ok.injEq, Prod.mk.injEq] at he
    obtain ⟨h1, h2⟩ := he
    subst h2
    exact stsub.property

theorem entryResult_advances {st : PState} {config cfg' : ConfigDict} {st' : PState}
    {h : st.cursor < st.lines.length}
    (he : entryResult st config h = .ok (cfg', st')) :
    st'.lines = st.lines ∧ st.cursor ≤ st'.cursor := by
  unfold entryResult at he
  cases hp : parseEntry st config h with
  | error e => rw [hp] at he; simp [Except.map] at he
  | ok p =>
    obtain ⟨cfg2, stsub⟩ := p
    rw [hp] at he
    simp only [Except.map, Option.map, Except.ok.injEq, Prod.mk.injEq] at he
    obtain ⟨h1, h2⟩ := he
    subst h2
    exact stsub.property

/-! Fuel-indexed mirrors of the recursive functions.  These are structurally
recursive on the fuel, so concrete runs reduce inside the kernel; the
agreement theorem below proves that with enough fuel they coincide with the
functions above, which is how concrete inputs are evaluated in the
theorems. -/

def checkTrailingF : Nat → List (List Char) → Nat → Except PErr Unit
  | 0, _, _ => .error ⟨.expectedEOF, 0⟩
  | fuel + 1, lines, c =>
    if c < lines.length then
      if isSkipLine (trim (lines.getD c [])) then checkTrailingF fuel lines (c + 1)
      else .error ⟨.expectedEOF, c + 1⟩
    else .ok ()

mutual

def parseMainF : Nat → PState → Except PErr ConfigDict
  | 0, _ => .error ⟨.expectedOpenBrace, 0⟩
  | fuel + 1, st =>
    if st.cursor < st.lines.length then
      if isSkipLine (curLine st) then parseMainF fuel { st with cursor := st.cursor + 1 }
      else if startsWithDef (curLine st) then
        match parseCDeclF fuel st with
        | .error e => .error e
        | .ok cs => parseMainF fuel { st with constants := cs, cursor := st.cursor + 1 }
      else if headIs (curLine st) lbrace then
        match parseBlockLoopF fuel { st with cursor := st.cursor + 1 } [] with
        | .error e => .error e
        | .ok (config, st') =>
          match checkTrailingF (fuel + 1) st'.lines st'.cursor with
          | .error e => .error e
          | .ok _ => .ok config
      else .error ⟨.expectedOpenBrace, st.cursor + 1⟩
    else .ok []

def parseBlockLoopF : Nat → PState → ConfigDict → Except PErr (ConfigDict × PState)
  | 0, _, _ => .error ⟨.expectedOpenBrace, 0⟩
  | fuel + 1, st, config =>
    if st.cursor < st.lines.length then
      if isSkipLine (curLine st) then
        parseBlockLoopF fuel { st with cursor := st.cursor + 1 } config
      else if startsWithDef (curLine st) then
        match parseCDeclF fuel st with
        | .error e => .error e
        | .ok cs => parseBlockLoopF fuel { st with constants := cs, cursor := st.cursor + 1 } config
      else if headIs (curLine st) lbrace then
        parseBlockLoopF fuel { st with cursor := st.cursor + 1 } []
      else if headIs (curLine st) rbrace then
        if curLine st = [rbrace, '.'] ∨ curLine st = [rbrace] then
          .ok (config, { st with cursor := st.cursor + 1 })
        else .error ⟨.malformedClose, st.cursor + 1⟩
      else
        match parseEntryF fuel st config with
        | .error e => .error e
        | .ok (cfg, st') => parseBlockLoopF fuel { st' with cursor := st'.cursor + 1 } cfg
    else .ok (config, st)

def parseEntryF : Nat → PState → ConfigDict → Except PErr (ConfigDict × PState)
  | 0, _, _ => .error ⟨.expectedOpenBrace, 0⟩
  | fuel + 1, st, config =>
    match matchEntryValue (curLine st) with
    | some (key, rawv) =>
      match parseValueF fuel st (trim rawv) with
      | .error e => .error e
      | .ok v => .ok (dictInsert config key v, st)
    | none =>
      match matchEntryNested (curLine st) with
      | some key =>
        match parseBlockLoopF fuel { st with cursor := st.cursor + 1 } [] with
        | .error e => .error e
        | .ok (nested, st') => .ok (dictInsert config key (.vMap nested), st')
      | none => .error ⟨.invalidEntry, st.cursor + 1⟩

def parseCDeclF : Nat → PState → Except PErr ConfigDict
  | 0, _ => .error ⟨.expectedOpenBrace, 0⟩
  | fuel + 1, st =>
    match matchDef (curLine st) with
    | some (name, rawv) =>
      match parseValueF fuel st (trim rawv) with
      | .error e => .error e
      | .ok v => .ok (dictInsert st.constants name v)
    | none => .error ⟨.invalidConstDecl, st.cursor + 1⟩

def parseValueF : Nat → PState → List Char → Except PErr Value
  | 0, _, _ => .error ⟨.expectedOpenBrace, 0⟩
  | fuel + 1, st, v =>
    if isTextTok v then .ok (parse_string v)
    else if isDictTok v then
      match parseBlockLoopF fuel
          (PState.mk (splitLines (trim ((v.drop 1).dropLast))) 0 st.constants) [] with
      | .error e => .error e
      | .ok (cfg, _) => .ok (.vMap cfg)
    else if isConstTok v then parse_constant st v
    else parse_number st v

end

theorem len_le_weights_sum (L : List (List Char)) :
    L.length ≤ (L.map (fun l => l.length + 1)).sum := by
  induction L with
  | nil => simp
  | cons a t ih =>
    simp only [List.map_cons, List.sum_cons, List.length_cons]
    omega

theorem weight_ge_remaining (lines : List (List Char)) (c : Nat) :
    lines.length - c ≤ weight lines c := by
  have h := len_le_weights_sum (lines.drop c)
  unfold weight
  rw [List.length_drop] at h
  exact h

theorem checkTrailingF_eq (fuel : Nat) :
    ∀ (lines : List (List Char)) (c : Nat), lines.length - c < fuel →
      checkTrailingF fuel lines c = checkTrailing lines c := by
  induction fuel with
  | zero => intro lines c hf; omega
  | succ n ih =>
    intro lines c hf
    simp only [checkTrailingF]
    by_cases h : c < lines.length
    · rw [if_pos h]
      cases hs : isSkipLine (trim (lines.getD c [])) with
      | false =>
        rw [checkTrailing_bad lines c h hs]
        rfl
      | true =>
        rw [ih lines (c + 1) (by omega), checkTrailing_skip lines c h hs]
        rfl
    · rw [if_neg h, checkTrailing_stop lines c (by omega)]

theorem evalF_agrees (fuel : Nat) :
    (∀ st : PState, 5 * weight st.lines st.cursor + 5 ≤ fuel →
      parseMainF fuel st = parseMain st)
    ∧ (∀ (st : PState) (config : ConfigDict), 5 * weight st.lines st.cursor + 4 ≤ fuel →
      parseBlockLoopF fuel st config = blockResult st config)
    ∧ (∀ (st : PState) (config : ConfigDict) (h : st.cursor < st.lines.length),
      5 * weight st.lines st.cursor + 3 ≤ fuel →
      parseEntryF fuel st config = entryResult st config h)
    ∧ (∀ (st : PState) (h : st.cursor < st.lines.length),
      5 * weight st.lines st.cursor + 2 ≤ fuel →
      parseCDeclF fuel st = parseConstantDeclaration st h)
    ∧ (∀ (st : PState) (v : List Char), 5 * v.length + 6 ≤ fuel →
      parseValueF fuel st v = parseValue st v) := by
  induction fuel with
  | zero => refine ⟨?_, ?_, ?_, ?_, ?_⟩ <;> intros <;> omega
  | succ n ih =>
    obtain ⟨ihm, ihb, ihe, ihc, ihv⟩ := ih
    refine ⟨?_, ?_, ?_, ?_, ?_⟩
    · -- parseMainF
      intro st hf
      simp only [parseMainF]
      by_cases h : st.cursor < st.lines.length
      · rw [if_pos h]
        have hw := weight_split st.lines st.cursor h
        have hlt := weight_succ_lt st.lines st.cursor h
        cases hs : isSkipLine (curLine st) with
        | true =>
          rw [parseMain_skip st h hs]
          have hbb : 5 * weight st.lines (st.cursor + 1) + 5 ≤ n := by omega
          exact ihm _ hbb
        | false =>
          cases hd : startsWithDef (curLine st) with
          | true =>
            rw [parseMain_cdecl st h hs hd, ihc st h (by omega)]
            cases parseConstantDeclaration st h with
            | error e => simp [Except.bind]
            | ok cs =>
              simp only [Except.bind]
              show parseMainF n { st with constants := cs, cursor := st.cursor + 1 }
                  = parseMain { st with constants := cs, cursor := st.cursor + 1 }
              have hbb : 5 * weight st.lines (st.cursor + 1) + 5 ≤ n := by omega
              exact ihm _ hbb
          | false =>
            cases hb : headIs (curLine st) lbrace with
            | true =>
              have hbb : 5 * weight st.lines (st.cursor + 1) + 4 ≤ n := by omega
              rw [parseMain_brace st h hs hd hb,
                ihb { st with cursor := st.cursor + 1 } [] hbb]
              cases hblk : blockResult { st with cursor := st.cursor + 1 } [] with
              | error e => simp [Except.bind]
              | ok p =>
                obtain ⟨cfg, st'⟩ := p
                simp only [Except.bind]
                obtain ⟨hl, hc'⟩ := blockResult_advances hblk
                have hl' : st'.lines = st.lines := hl
                have hc2 : st.cursor + 1 ≤ st'.cursor := hc'
                have hrem : st'.lines.length - st'.cursor < n + 1 := by
                  rw [hl']
                  have h1 := weight_ge_remaining st.lines st.cursor
                  omega
                rw [checkTrailingF_eq (n + 1) st'.lines st'.cursor hrem]
                cases checkTrailing st'.lines st'.cursor <;> simp [Except.map]
            | false =>
              rw [parseMain_err st h hs hd hb]
              rfl
      · rw [if_neg h, parseMain_stop st (by omega)]
    · -- parseBlockLoopF
      intro st config hf
      simp only [parseBlockLoopF]
      by_cases h : st.cursor < st.lines.length
      · rw [if_pos h]
        have hw := weight_split st.lines st.cursor h
        have hlt := weight_succ_lt st.lines st.cursor h
        cases hs : isSkipLine (curLine st) with
        | true =>
          rw [blockResult_skip st config h hs]
          have hbb : 5 * weight st.lines (st.cursor + 1) + 4 ≤ n := by omega
          exact ihb _ _ hbb
        | false =>
          cases hd : startsWithDef (curLine st) with
          | true =>
            rw [blockResult_cdecl st config h hs hd, ihc st h (by omega)]
            cases parseConstantDeclaration st h with
            | error e => simp [Except.bind]
            | ok cs =>
              simp only [Except.bind]
              show parseBlockLoopF n { st with constants := cs, cursor := st.cursor + 1 } config
                  = blockResult { st with constants := cs, cursor := st.cursor + 1 } config
              have hbb : 5 * weight st.lines (st.cursor + 1) + 4 ≤ n := by omega
              exact ihb _ _ hbb
          | false =>
            cases hb : headIs (curLine st) lbrace with
            | true =>
              rw [blockResult_anon st config h hs hd hb]
              have hbb : 5 * weight st.lines (st.cursor + 1) + 4 ≤ n := by omega
              exact ihb _ _ hbb
            | false =>
              cases hcb : headIs (curLine st) rbrace with
              | true =>
                by_cases hok : curLine st = [rbrace, '.'] ∨ curLine st = [rbrace]
                · rw [if_pos hok, blockResult_close st config h hs hd hb hcb hok]
                  rfl
                · rw [if_neg hok, blockResult_closeBad st config h hs hd hb hcb hok]
                  rfl
              | false =>
                rw [blockResult_entry st config h hs hd hb hcb,
                  ihe st config h (by omega)]
                cases hq : entryResult st config h with
                | error e => simp [Except.bind]
                | ok p =>
                  obtain ⟨cfg, st'⟩ := p
                  simp only [Except.bind]
                  show parseBlockLoopF n { st' with cursor := st'.cursor + 1 } cfg
                      = blockResult { st' with cursor := st'.cursor + 1 } cfg
                  obtain ⟨hl, hc'⟩ := entryResult_advances hq
                  apply ihb
                  show 5 * weight st'.lines (st'.cursor + 1) + 4 ≤ n
                  rw [hl]
                  have := weight_succ_lt_of_le st.lines hc' h
                  omega
      · rw [if_neg h, blockResult_stop st config (by omega)]
    · -- parseEntryF
      intro st config h hf
      simp only [parseEntryF]
      cases hm : matchEntryValue (curLine st) with
      | some kv =>
        obtain ⟨key, rawv⟩ := kv
        rw [entryResult_value st config h key rawv hm]
        show (match parseValueF n st (trim rawv) with
          | .error e => .error e
          | .ok v => .ok (dictInsert config key v, st))
          = (parseValue st (trim rawv)).map (fun v => (dictInsert config key v, st))
        have hbound : 5 * (trim rawv).length + 6 ≤ n := by
          have h1 := matchEntryValue_length hm
          have h2 := trim_length_le rawv
          have h3 : (curLine st).length ≤ st.lines[st.cursor].length := by
            unfold curLine
            rw [List.getD_eq_get st.lines [] h]
            simpa using trim_length_le _
          have h4 := weight_split st.lines st.cursor h
          omega
        rw [ihv st (trim rawv) hbound]
        cases parseValue st (trim rawv) <;> simp [Except.map]
      | none =>
        cases hn : matchEntryNested (curLine st) with
        | some key =>
          rw [entryResult_nested st config h key hm hn]
          show (match parseBlockLoopF n { st with cursor := st.cursor + 1 } [] with
            | .error e => .error e
            | .ok (nested, st') => .ok (dictInsert config key (.vMap nested), st'))
            = (blockResult { st with cursor := st.cursor + 1 } []).map
              (fun p => (dictInsert config key (.vMap p.1), p.2))
          have hlt := weight_succ_lt st.lines st.cursor h
          have hbb : 5 * weight st.lines (st.cursor + 1) + 4 ≤ n := by omega
          rw [ihb { st with cursor := st.cursor + 1 } [] hbb]
          cases blockResult { st with cursor := st.cursor + 1 } [] with
          | error e => simp [Except.map]
          | ok p =>
            obtain ⟨cfg, st'⟩ := p
            simp [Except.map]
        | none =>
          rw [entryResult_err st config h hm hn]
    · -- parseCDeclF
      intro st h hf
      simp only [parseCDeclF]
      cases hm : matchDef (curLine st) with
      | some nv =>
        obtain ⟨name, rawv⟩ := nv
        rw [cdecl_ok st h name rawv hm]
        show (match parseValueF n st (trim rawv) with
          | .error e => .error e
          | .ok v => .ok (dictInsert st.constants name v))
          = (parseValue st (trim rawv)).map (dictInsert st.constants name)
        have hbound : 5 * (trim rawv).length + 6 ≤ n := by
          have h1 := matchDef_length hm
          have h2 := trim_length_le rawv
          have h3 : (curLine st).length ≤ st.lines[st.cursor].length := by
            unfold curLine
            rw [List.getD_eq_get st.lines [] h]
            simpa using trim_length_le _
          have h4 := weight_split st.lines st.cursor h
          omega
        rw [ihv st (trim rawv) hbound]
        cases parseValue st (trim rawv) <;> simp [Except.map]
      | none =>
        rw [cdecl_err st h hm]
    · -- parseValueF
      intro st v hf
      simp only [parseValueF]
      cases ht : isTextTok v with
      | true =>
        rw [parseValue_text st v ht]
        rfl
      | false =>
        cases hd : isDictTok v with
        | true =>
          rw [parseValue_dict st v ht hd]
          have hv2 := two_le_of_dictTok hd
          have hwn : weight (splitLines (trim ((v.drop 1).dropLast))) 0
              = (trim ((v.drop 1).dropLast)).length + 1 := by
            unfold weight
            rw [List.drop_zero]
            exact splitLines_weight _
          have hct := trim_length_le ((v.drop 1).dropLast)
          have hdl : ((v.drop 1).dropLast).length = v.length - 2 := by
            simp only [List.length_dropLast, List.length_drop]
            omega
          have hbb : 5 * weight (splitLines (trim ((v.drop 1).dropLast))) 0 + 4 ≤ n := by omega
          rw [ihb (PState.mk (splitLines (trim ((v.drop 1).dropLast))) 0 st.constants) [] hbb]
          cases blockResult (PState.mk (splitLines (trim ((v.drop 1).dropLast))) 0 st.constants) [] with
          | error e => simp [Except.map]
          | ok p =>
            obtain ⟨cfg, st'⟩ := p
            simp [Except.map]
        | false =>
          cases hc : isConstTok v with
          | true =>
            rw [parseValue_const st v ht hd hc]
            rfl
          | false =>
            rw [parseValue_num st v ht hd hc]
            rfl

/-- `parse` through the fuel-indexed mirror, with fuel that
`parse_eq_parseF` proves sufficient for any input. -/
def parseF (text : List Char) : Except PErr ConfigDict :=
  parseMainF (5 * text.length + 11) (PState.mk (splitLines text) 0 [])

theorem parse_eq_parseF (text : List Char) : parse text = parseF text := by
  unfold parse parseF
  have hw : weight (splitLines text) 0 = text.length + 1 := by
    unfold weight
    rw [List.drop_zero]
    exact splitLines_weight _
  have hb : 5 * weight (splitLines text) 0 + 5 ≤ 5 * text.length + 11 := by omega
  exact ((evalF_agrees (5 * text.length + 11)).1 _ hb).symm

/-! Remaining helper lemmas used by the claim theorems. -/

theorem lookupC_dictInsert_self (m : ConfigDict) (k : List Char) (v : Value) :
    lookupC (dictInsert m k v) k = some v := by
  induction m with
  | nil => simp [dictInsert, lookupC]
  | cons p rest ih =>
    obtain ⟨k', v'⟩ := p
    by_cases hk : k' = k
    · simp [dictInsert, lookupC, hk]
    · simp [dictInsert, lookupC, hk, ih]

theorem not_skip_of_def {l : List Char} (h : startsWithDef l = true) :
    isSkipLine l = false := by
  unfold startsWithDef at h
  split at h
  · next t => simp [isSkipLine, isComment]
  · exact absurd h (by simp)

theorem not_skip_of_lbrace {l : List Char} (h : headIs l lbrace = true) :
    isSkipLine l = false := by
  cases l with
  | nil => simp [headIs] at h
  | cons a t =>
    simp [headIs] at h
    subst h
    cases t with
    | nil => rfl
    | cons b t2 => rfl

theorem not_def_of_lbrace {l : List Char} (h : headIs l lbrace = true) :
    startsWithDef l = false := by
  cases l with
  | nil => simp [headIs] at h
  | cons a t =>
    simp [headIs] at h
    subst h
    rfl

theorem checkTrailing_ok_iff (lines : List (List Char)) (c : Nat) :
    checkTrailing lines c = .ok () ↔
      ∀ j, c ≤ j → j < lines.length → isSkipLine (trim (lines.getD j [])) = true := by
  suffices H : ∀ n c, lines.length - c ≤ n →
      (checkTrailing lines c = .ok () ↔
        ∀ j, c ≤ j → j < lines.length → isSkipLine (trim (lines.getD j [])) = true) from
    H lines.length c (by omega)
  intro n
  induction n with
  | zero =>
    intro c hc
    rw [checkTrailing_stop lines c (by omega)]
    constructor
    · intro _ j hj1 hj2
      omega
    · intro _
      rfl
  | succ n ih =>
    intro c hc
    by_cases h : c < lines.length
    · cases hs : isSkipLine (trim (lines.getD c [])) with
      | true =>
        rw [checkTrailing_skip lines c h hs, ih (c + 1) (by omega)]
        constructor
        · intro hall j hj1 hj2
          rcases Nat.eq_or_lt_of_le hj1 with rfl | hlt
          · exact hs
          · exact hall j (by omega) hj2
        · intro hall j hj1 hj2
          exact hall j (by omega) hj2
      | false =>
        rw [checkTrailing_bad lines c h hs]
        constructor
        · intro hcontra
          cases hcontra
        · intro hall
          have hcontra := hall c (Nat.le_refl c) h
          rw [hs] at hcontra
          simp at hcontra
    · rw [checkTrailing_stop lines c (by omega)]
      constructor
      · intro _ j hj1 hj2
        omega
      · intro _
        rfl

theorem checkTrailing_error_kind (lines : List (List Char)) (c : Nat) (e : PErr)
    (he : checkTrailing lines c = .error e) : e.kind = .expectedEOF := by
  suffices H : ∀ n c, lines.length - c ≤ n → checkTrailing lines c = .error e →
      e.kind = .expectedEOF from H lines.length c (by omega) he
  intro n
  induction n with
  | zero =>
    intro c hc hcontra
    rw [checkTrailing_stop lines c (by omega)] at hcontra
    cases hcontra
  | succ n ih =>
    intro c hc herr
    by_cases h : c < lines.length
    · cases hs : isSkipLine (trim (lines.getD c [])) with
      | true =>
        rw [checkTrailing_skip lines c h hs] at herr
        exact ih (c + 1) (by omega) herr
      | false =>
        rw [checkTrailing_bad lines c h hs] at herr
        cases herr
        rfl
    · rw [checkTrailing_stop lines c (by omega)] at herr
      cases herr

theorem parseMain_all_skip : ∀ (n : Nat) (st : PState), st.lines.length - st.cursor ≤ n →
    (∀ j, st.cursor ≤ j → j < st.lines.length → isSkipLine (trim (st.lines.getD j [])) = true) →
    parseMain st = .ok [] := by
  intro n
  induction n with
  | zero =>
    intro st hn _
    rw [parseMain_stop st (by omega)]
  | succ n ih =>
    intro st hn hall
    by_cases h : st.cursor < st.lines.length
    · have hs : isSkipLine (curLine st) = true := hall st.cursor (Nat.le_refl _) h
      rw [parseMain_skip st h hs]
      refine ih _ ?_ ?_
      · show st.lines.length - (st.cursor + 1) ≤ n
        omega
      · intro j hj1 hj2
        have hj1' : st.cursor + 1 ≤ j := hj1
        exact hall j (by omega) hj2
    · rw [parseMain_stop st (by omega)]

/-! The claim theorems. -/

/-- C1: parsing an inline mapping literal value spawns a brand-new parser
state (fresh line list, cursor 0) whose constant table is the enclosing
state's table at the moment of invocation; the enclosing state — its
constant table included — is returned unchanged by a value-form entry, so a
constant declared inside the inline literal is not visible to any entry
parsed afterwards in the enclosing scope (concretely, referencing it later
fails with an undefined-constant error). -/
theorem c1 :
    (∀ (st : PState) (v : List Char) (hv : 2 ≤ v.length),
      parseDict st v hv = (blockResult
        (PState.mk (splitLines (trim ((v.drop 1).dropLast))) 0 st.constants) []).map
        (fun p => .vMap p.1))
    ∧ (∀ (st : PState) (config : ConfigDict) (h : st.cursor < st.lines.length)
        (key rawv : List Char), matchEntryValue (curLine st) = some (key, rawv) →
        entryResult st config h
          = (parseValue st (trim rawv)).map (fun v => (dictInsert config key v, st)))
    ∧ parse ("\x7b\na -> \x7bdef C = 5;\x7d.\nb -> |C|.\n\x7d.".toList)
        = .error ⟨.undefinedConst ['C'], 3⟩ := by
  refine ⟨?_, ?_, ?_⟩
  · intro st v hv
    rw [parseDict.eq_def]
    unfold blockResult
    cases parseBlockLoop (PState.mk (splitLines (trim ((v.drop 1).dropLast))) 0 st.constants) [] with
    | error e => simp [Except.map]
    | ok p =>
      obtain ⟨cfg, st'⟩ := p
      simp [Except.map]
  · intro st config h key rawv hm
    exact entryResult_value st config h key rawv hm
  · rw [parse_eq_parseF]
    rfl

/-- C1 witness: the snapshot equation and the state-preservation equation of
`c1` instantiated at concrete inputs. -/
theorem c1_witness :
    (2 ≤ ("\x7bx -> 1.\x7d".toList).length
      ∧ parseDict (PState.mk [] 0 [(['D'], .vInt 9)]) ("\x7bx -> 1.\x7d".toList) (by decide)
        = (blockResult (PState.mk
            (splitLines (trim ((("\x7bx -> 1.\x7d".toList).drop 1).dropLast))) 0
            [(['D'], .vInt 9)]) []).map (fun p => .vMap p.1))
    ∧ (matchEntryValue (curLine (PState.mk ["a -> 2.".toList] 0 [])) = some (['a'], ['2'])
      ∧ entryResult (PState.mk ["a -> 2.".toList] 0 []) [] (by decide)
        = (parseValue (PState.mk ["a -> 2.".toList] 0 []) (trim ['2'])).map
            (fun v => (dictInsert [] ['a'] v, PState.mk ["a -> 2.".toList] 0 []))) := by
  refine ⟨⟨by decide, c1.1 _ _ _⟩, by decide, c1.2.1 _ _ (by decide) ['a'] ['2'] (by decide)⟩

/-- C2: a structurally nested block (`key -> ⟨open brace⟩` entry form) is
parsed by recursing into the same parser state: the nested block starts from
the next line with the same shared constant table, and the state it returns
(with every constant declared inside still present) becomes the state of the
enclosing scope; concretely, a constant declared before entering is visible
inside, and one declared inside is still visible after the block closes. -/
theorem c2 :
    (∀ (st : PState) (config : ConfigDict) (h : st.cursor < st.lines.length) (key : List Char),
      matchEntryValue (curLine st) = none → matchEntryNested (curLine st) = some key →
      entryResult st config h = (blockResult { st with cursor := st.cursor + 1 } []).map
        (fun p => (dictInsert config key (.vMap p.1), p.2)))
    ∧ parse ("def D = 1;\n\x7b\na -> \x7b\ndef C = 5;\nx -> |D|.\n\x7d.\n*> pad\nb -> |C|.\n\x7d.".toList)
        = .ok [(['a'], .vMap [(['x'], .vInt 1)]), (['b'], .vInt 5)] := by
  constructor
  · intro st config h key hmv hm
    exact entryResult_nested st config h key hmv hm
  · rw [parse_eq_parseF]
    rfl

/-- C2 witness: the shared-state equation of `c2` instantiated at a concrete
nested-entry line. -/
theorem c2_witness :
    matchEntryValue (curLine (PState.mk ["a -> \x7b".toList, ['\x7d', '.']] 0 [])) = none
    ∧ matchEntryNested (curLine (PState.mk ["a -> \x7b".toList, ['\x7d', '.']] 0 [])) = some ['a']
    ∧ entryResult (PState.mk ["a -> \x7b".toList, ['\x7d', '.']] 0 []) [] (by decide)
      = (blockResult { PState.mk ["a -> \x7b".toList, ['\x7d', '.']] 0 [] with cursor := 0 + 1 } []).map
        (fun p => (dictInsert [] ['a'] (.vMap p.1), p.2)) := by
  refine ⟨by decide, by decide, c2.1 _ _ (by decide) ['a'] (by decide) (by decide)⟩

/-- C3 counterexample: an input whose block is never closed parses
successfully — `parse_block` simply stops at end of input and the driver
returns the accumulated mapping, contradicting the claim that such inputs
fail with a parse error. -/
theorem c3_cex : parse ("\x7b\na -> 1.".toList) = .ok [(['a'], .vInt 1)] := by
  rw [parse_eq_parseF]
  rfl

/-- C3 (amended): when the Block Reader reaches the end of the input lines
before a closing line, it does not raise an error: the loop ends and the
accumulated mapping is returned as though the block had been closed. -/
theorem c3_amended :
    ∀ (st : PState) (config : ConfigDict), st.lines.length ≤ st.cursor →
      blockResult st config = .ok (config, st) :=
  fun st config h => blockResult_stop st config h

/-- C3 witness: `c3_amended` instantiated at a concrete exhausted state. -/
theorem c3_witness :
    ([["a -> 1.".toList]] : List (List (List Char))).length = 1
    ∧ (["a -> 1.".toList] : List (List Char)).length ≤ 1
    ∧ blockResult (PState.mk ["a -> 1.".toList] 1 []) [(['a'], .vInt 1)]
      = .ok ([(['a'], .vInt 1)], PState.mk ["a -> 1.".toList] 1 []) := by
  refine ⟨by decide, by decide, c3_amended _ _ (by decide)⟩

/-- C4: when the Block Reader meets a line that is exactly an opening brace,
it recurses at the next line with a fresh empty accumulator and returns that
nested block's result directly as its own result — the entries already
accumulated in `config` are discarded (they do not occur on the right-hand
side). -/
theorem c4 :
    ∀ (st : PState) (config : ConfigDict) (h : st.cursor < st.lines.length),
      curLine st = [lbrace] →
      blockResult st config = blockResult { st with cursor := st.cursor + 1 } [] := by
  intro st config h hcl
  exact blockResult_anon st config h (by rw [hcl]; decide) (by rw [hcl]; decide)
    (by rw [hcl]; decide)

/-- C4 witness: `c4` at a concrete state with a non-empty accumulated
mapping. -/
theorem c4_witness :
    (0 : Nat) < ([[ '\x7b' ], ['\x7d']] : List (List Char)).length
    ∧ curLine (PState.mk [['\x7b'], ['\x7d']] 0 []) = [lbrace]
    ∧ blockResult (PState.mk [['\x7b'], ['\x7d']] 0 []) [(['z'], .vInt 7)]
      = blockResult { PState.mk [['\x7b'], ['\x7d']] 0 [] with cursor := 0 + 1 } [] := by
  refine ⟨by decide, by decide, c4 _ _ (by decide) (by decide)⟩

/-- C5: a trimmed value token that is not delimited as text, inline mapping,
or constant reference is parsed as a numeric literal: if it matches
`-?digits(.digits)?` the result is the float built from the literal exactly
when the token contains a dot and the integer otherwise; any other token
fails with the invalid-number error naming that token. -/
theorem c5 :
    ∀ (st : PState) (v : List Char),
      isTextTok v = false → isDictTok v = false → isConstTok v = false →
      ((numPat v = true →
          (v.contains '.' = true → parseValue st v = .ok (floatOfToken v))
          ∧ (v.contains '.' = false → parseValue st v = .ok (.vInt (intOfToken v)))
          ∧ (∃ m s, floatOfToken v = .vFloat m s))
        ∧ (numPat v = false →
          parseValue st v = .error ⟨.invalidNumber v, st.cursor + 1⟩)) := by
  intro st v ht hd hc
  rw [parseValue_num st v ht hd hc]
  unfold parse_number
  constructor
  · intro hn
    refine ⟨?_, ?_, ⟨_, _, rfl⟩⟩
    · intro hdot
      simp only [hn, hdot]
      rfl
    · intro hdot
      simp only [hn, hdot]
      rfl
  · intro hn
    simp only [hn]
    rfl

/-- C5 witness: `c5` at concrete float, integer, and malformed tokens. -/
theorem c5_witness :
    (isTextTok ("45.67".toList) = false ∧ isDictTok ("45.67".toList) = false
      ∧ isConstTok ("45.67".toList) = false ∧ numPat ("45.67".toList) = true
      ∧ ("45.67".toList).contains '.' = true
      ∧ parseValue (PState.mk [] 0 []) ("45.67".toList) = .ok (floatOfToken ("45.67".toList)))
    ∧ (numPat ("-12".toList) = true ∧ ("-12".toList).contains '.' = false
      ∧ parseValue (PState.mk [] 0 []) ("-12".toList) = .ok (.vInt (intOfToken ("-12".toList))))
    ∧ (numPat ("12a3".toList) = false
      ∧ parseValue (PState.mk [] 0 []) ("12a3".toList)
        = .error ⟨.invalidNumber ("12a3".toList), 0 + 1⟩) := by
  refine ⟨⟨by decide, by decide, by decide, by decide, by decide, ?_⟩,
    ⟨by decide, by decide, ?_⟩, ⟨by decide, ?_⟩⟩
  · exact ((c5 _ _ (by decide) (by decide) (by decide)).1 (by decide)).1 (by decide)
  · exact ((c5 _ _ (by decide) (by decide) (by decide)).1 (by decide)).2.1 (by decide)
  · exact (c5 _ _ (by decide) (by decide) (by decide)).2 (by decide)

/-- C6: a constant-reference token resolves by looking the name between the
bars up in the current constant table — the most recent declaration wins,
since a redeclaration overwrites the stored binding in place — and an
undeclared name fails with the undefined-constant error naming it;
concretely, declaring CONST=100 then CONST=200 and referencing it yields
200. -/
theorem c6 :
    (∀ (st : PState) (v : List Char),
      isTextTok v = false → isDictTok v = false → isConstTok v = true →
      parseValue st v = (match lookupC st.constants ((v.drop 1).dropLast) with
        | some val => .ok val
        | none => .error ⟨.undefinedConst ((v.drop 1).dropLast), st.cursor + 1⟩))
    ∧ (∀ (m : ConfigDict) (k : List Char) (v1 v2 : Value),
      lookupC (dictInsert (dictInsert m k v1) k v2) k = some v2)
    ∧ parse ("def CONST = 100;\ndef CONST = 200;\n\x7b\nkey1 -> |CONST|.\n\x7d.".toList)
        = .ok [(['k','e','y','1'], .vInt 200)] := by
  refine ⟨?_, ?_, ?_⟩
  · intro st v ht hd hc
    rw [parseValue_const st v ht hd hc]
    rfl
  · intro m k v1 v2
    exact lookupC_dictInsert_self (dictInsert m k v1) k v2
  · rw [parse_eq_parseF]
    rfl

/-- C6 witness: the lookup equation of `c6` instantiated at a defined and an
undefined constant reference. -/
theorem c6_witness :
    (isTextTok ("|C|".toList) = false ∧ isDictTok ("|C|".toList) = false
      ∧ isConstTok ("|C|".toList) = true
      ∧ parseValue (PState.mk [] 0 [(['C'], .vInt 3)]) ("|C|".toList)
        = (match lookupC [(['C'], .vInt 3)] ((("|C|".toList).drop 1).dropLast) with
          | some val => .ok val
          | none => .error ⟨.undefinedConst ((("|C|".toList).drop 1).dropLast), 0 + 1⟩))
    ∧ parseValue (PState.mk [] 0 []) ("|C|".toList)
      = (match lookupC ([] : ConfigDict) ((("|C|".toList).drop 1).dropLast) with
        | some val => .ok val
        | none => .error ⟨.undefinedConst ((("|C|".toList).drop 1).dropLast), 0 + 1⟩) := by
  refine ⟨⟨by decide, by decide, by decide, ?_⟩, ?_⟩
  · exact c6.1 _ _ (by decide) (by decide) (by decide)
  · exact c6.1 _ _ (by decide) (by decide) (by decide)

/-- C7: after the top-level block returns, the driver scans the remaining
lines: the scan succeeds exactly when every remaining line is blank or a
comment, every error it raises is the expected-end-of-file error (at the
first offending line), and the driver's opening-brace branch is precisely
this block-then-scan composition returning the block's mapping. -/
theorem c7 :
    (∀ (lines : List (List Char)) (c : Nat),
      checkTrailing lines c = .ok () ↔
        ∀ j, c ≤ j → j < lines.length → isSkipLine (trim (lines.getD j [])) = true)
    ∧ (∀ (lines : List (List Char)) (c : Nat) (e : PErr),
      checkTrailing lines c = .error e → e.kind = .expectedEOF)
    ∧ (∀ (st : PState) (h : st.cursor < st.lines.length),
      headIs (curLine st) lbrace = true →
      parseMain st = (blockResult { st with cursor := st.cursor + 1 } []).bind
        (fun p => (checkTrailing p.2.lines p.2.cursor).map (fun _ => p.1))) := by
  refine ⟨checkTrailing_ok_iff, checkTrailing_error_kind, ?_⟩
  intro st h hb
  exact parseMain_brace st h (not_skip_of_lbrace hb) (not_def_of_lbrace hb) hb

/-- C7 witness: `c7` instantiated at a concrete non-blank trailing line and
at a concrete opening-brace driver state. -/
theorem c7_witness :
    (checkTrailing [['x']] 0 = .error ⟨.expectedEOF, 1⟩
      ∧ (⟨.expectedEOF, 1⟩ : PErr).kind = .expectedEOF)
    ∧ ((0 : Nat) < ([['\x7b'], ['\x7d', '.']] : List (List Char)).length
      ∧ headIs (curLine (PState.mk [['\x7b'], ['\x7d', '.']] 0 [])) lbrace = true
      ∧ parseMain (PState.mk [['\x7b'], ['\x7d', '.']] 0 [])
        = (blockResult { PState.mk [['\x7b'], ['\x7d', '.']] 0 [] with cursor := 0 + 1 } []).bind
          (fun p => (checkTrailing p.2.lines p.2.cursor).map (fun _ => p.1))) := by
  refine ⟨⟨checkTrailing_bad [['x']] 0 (by decide) (by decide),
    c7.2.1 [['x']] 0 ⟨.expectedEOF, 1⟩ (checkTrailing_bad [['x']] 0 (by decide) (by decide))⟩,
    by decide, by decide, c7.2.2 _ (by decide) (by decide)⟩

/-- C8: an input consisting only of blank lines and comment lines — the
empty input included — parses to the empty mapping rather than an error. -/
theorem c8 :
    (∀ text : List Char, (∀ l ∈ splitLines text, isSkipLine (trim l) = true) →
      parse text = .ok [])
    ∧ parse [] = .ok [] := by
  constructor
  · intro text hall
    unfold parse
    refine parseMain_all_skip (splitLines text).length _ ?_ ?_
    · show (splitLines text).length - 0 ≤ (splitLines text).length
      omega
    · intro j hj1 hj2
      have hj2' : j < (splitLines text).length := hj2
      apply hall
      rw [List.getD_eq_get (splitLines text) [] hj2']
      exact List.get_mem _ _ _
  · rw [parse_eq_parseF]
    rfl

/-- C8 witness: `c8` at a concrete comments-and-blanks-only input. -/
theorem c8_witness :
    (∀ l ∈ splitLines ("*> hi\n\n*> more".toList), isSkipLine (trim l) = true)
    ∧ parse ("*> hi\n\n*> more".toList) = .ok [] := by
  refine ⟨by decide, c8.1 _ (by decide)⟩

/-- C9: the top-level parse is a total function — on every finite input it
either returns a mapping or an error — and the recursion that underlies it
never rewrites the line list and never moves the cursor backwards (the
well-founded measure justifying totality is the remaining-input weight). -/
theorem c9 :
    (∀ text : List Char, (∃ v, parse text = .ok v) ∨ (∃ e, parse text = .error e))
    ∧ (∀ (st : PState) (config cfg' : ConfigDict) (st' : PState),
      blockResult st config = .ok (cfg', st') →
      st'.lines = st.lines ∧ st.cursor ≤ st'.cursor) := by
  constructor
  · intro text
    cases h : parse text with
    | ok v => exact Or.inl ⟨v, rfl⟩
    | error e => exact Or.inr ⟨e, rfl⟩
  · intro st config cfg' st' he
    exact blockResult_advances he

/-- C9 witness: `c9` applied at a concrete block run. -/
theorem c9_witness :
    blockResult (PState.mk [] 0 []) [] = .ok ([], PState.mk [] 0 [])
    ∧ ((PState.mk ([] : List (List Char)) 0 []).lines = (PState.mk [] 0 []).lines
      ∧ (PState.mk ([] : List (List Char)) 0 []).cursor ≤ (PState.mk [] 0 []).cursor) := by
  refine ⟨blockResult_stop _ _ (by decide),
    c9.2 (PState.mk [] 0 []) [] [] (PState.mk [] 0 []) (blockResult_stop _ _ (by decide))⟩

/-- C10: any line (in the driver or inside a block) whose trimmed text starts
with the three characters d-e-f is dispatched to the constant-declaration
parser — block and driver alike hand it to `parse_constant_declaration` —
so an ordinary entry line such as `default -> 1.` fails with the
invalid-constant-declaration error instead of being parsed as an entry. -/
theorem c10 :
    (∀ (st : PState) (config : ConfigDict) (h : st.cursor < st.lines.length),
      startsWithDef (curLine st) = true →
      blockResult st config = (parseConstantDeclaration st h).bind
        (fun cs => blockResult { st with constants := cs, cursor := st.cursor + 1 } config))
    ∧ (∀ (st : PState) (h : st.cursor < st.lines.length),
      startsWithDef (curLine st) = true →
      parseMain st = (parseConstantDeclaration st h).bind
        (fun cs => parseMain { st with constants := cs, cursor := st.cursor + 1 }))
    ∧ parse ("\x7b\ndefault -> 1.\n\x7d.".toList) = .error ⟨.invalidConstDecl, 2⟩ := by
  refine ⟨?_, ?_, ?_⟩
  · intro st config h hd
    exact blockResult_cdecl st config h (not_skip_of_def hd) hd
  · intro st h hd
    exact parseMain_cdecl st h (not_skip_of_def hd) hd
  · rw [parse_eq_parseF]
    rfl

/-- C10 witness: the block-dispatch equation of `c10` instantiated at the
line `default -> 1.`. -/
theorem c10_witness :
    (0 : Nat) < ([("default -> 1.".toList)] : List (List Char)).length
    ∧ startsWithDef (curLine (PState.mk ["default -> 1.".toList] 0 [])) = true
    ∧ blockResult (PState.mk ["default -> 1.".toList] 0 []) []
      = (parseConstantDeclaration (PState.mk ["default -> 1.".toList] 0 []) (by decide)).bind
        (fun cs => blockResult
          { PState.mk ["default -> 1.".toList] 0 [] with constants := cs, cursor := 0 + 1 } []) := by
  refine ⟨by decide, by decide, c10.1 _ _ (by decide) (by decide)⟩

end ConfigParser
